import Mathlib

/-!
Verification development for qae_circuit.py (QCompress): a builder that
emits the gate sequence of a parameterized quantum autoencoder.  The
Python class QAECircuit is embedded shallowly: instructions are records
of gate name, angle parameters and qubit indices; the class-level gate
table, the block builders, the dagger-and-flip transform and the
orchestrator build_circuit are translated function by function.  The
mutable self.program attribute is threaded explicitly, and Python
exceptions (IndexError, KeyError) become error-carrying results.
-/

namespace QAE

/-- Symbolic parameter expressions, modelling the pyquil parameter
arithmetic (Parameter, quil_sin, quil_cos, integer and imaginary
literals) that the class-level gate matrices are written in. -/
inductive QuilExpr : Type where
  | theta : QuilExpr
  | intLit : ℤ → QuilExpr
  | i : QuilExpr
  | add : QuilExpr → QuilExpr → QuilExpr
  | sub : QuilExpr → QuilExpr → QuilExpr
  | mul : QuilExpr → QuilExpr → QuilExpr
  | div : QuilExpr → QuilExpr → QuilExpr
  | neg : QuilExpr → QuilExpr
  | cos : QuilExpr → QuilExpr
  | sin : QuilExpr → QuilExpr
deriving DecidableEq

/-- Semantics of a symbolic parameter expression at a concrete real
angle substituted for the parameter theta. -/
noncomputable def QuilExpr.eval (t : ℝ) : QuilExpr → ℂ
  | .theta => (t : ℂ)
  | .intLit n => (n : ℂ)
  | .i => Complex.I
  | .add a b => a.eval t + b.eval t
  | .sub a b => a.eval t - b.eval t
  | .mul a b => a.eval t * b.eval t
  | .div a b => a.eval t / b.eval t
  | .neg a => -(a.eval t)
  | .cos a => Complex.cos (a.eval t)
  | .sin a => Complex.sin (a.eval t)

/-- A circuit instruction: gate name, ordered angle parameters, ordered
qubit indices (the control qubit is listed first for two-qubit gates). -/
structure Instr (α : Type) where
  name : String
  params : List α
  qubits : List ℕ
deriving DecidableEq

/-- A gate constructor: angle parameters, then qubits, to an
instruction (the pyquil calling convention is curried; the convention
itself is an external-collaborator detail and is uncurried here). -/
def GateCtor (α : Type) : Type :=
  List α → List ℕ → Instr α

/-- A pyquil DefGate: a gate name together with its symbolic 4 x 4
matrix. -/
structure DefGate where
  name : String
  matrix : Matrix (Fin 4) (Fin 4) QuilExpr

/-- DefGate.get_constructor: instructions built from a DefGate carry
the name of that DefGate. -/
def DefGate.get_constructor {α : Type} (d : DefGate) : GateCtor α :=
  fun ps qs => ⟨d.name, ps, qs⟩

/-- Constructor of a native single-qubit pyquil gate of the given
name: instructions carry exactly that name. -/
def mkNative {α : Type} (m : String) : GateCtor α :=
  fun ps qs => ⟨m, ps, qs⟩

/-- The crx matrix of the source (lines 49 to 54), entry by entry. -/
def crx : Matrix (Fin 4) (Fin 4) QuilExpr :=
  !![.intLit 1, .intLit 0, .intLit 0, .intLit 0;
     .intLit 0, .intLit 1, .intLit 0, .intLit 0;
     .intLit 0, .intLit 0, .cos (.div .theta (.intLit 2)),
       .mul (.neg .i) (.sin (.div .theta (.intLit 2)));
     .intLit 0, .intLit 0, .mul (.neg .i) (.sin (.div .theta (.intLit 2))),
       .cos (.div .theta (.intLit 2))]

/-- The cry matrix of the source (lines 58 to 63). -/
def cry : Matrix (Fin 4) (Fin 4) QuilExpr :=
  !![.intLit 1, .intLit 0, .intLit 0, .intLit 0;
     .intLit 0, .intLit 1, .intLit 0, .intLit 0;
     .intLit 0, .intLit 0, .cos (.div .theta (.intLit 2)),
       .mul (.intLit (-1)) (.sin (.div .theta (.intLit 2)));
     .intLit 0, .intLit 0, .sin (.div .theta (.intLit 2)),
       .cos (.div .theta (.intLit 2))]

/-- The crz matrix of the source (lines 67 to 72). -/
def crz : Matrix (Fin 4) (Fin 4) QuilExpr :=
  !![.intLit 1, .intLit 0, .intLit 0, .intLit 0;
     .intLit 0, .intLit 1, .intLit 0, .intLit 0;
     .intLit 0, .intLit 0,
       .sub (.cos (.div .theta (.intLit 2))) (.mul .i (.sin (.div .theta (.intLit 2)))),
       .intLit 0;
     .intLit 0, .intLit 0, .intLit 0,
       .add (.cos (.div .theta (.intLit 2))) (.mul .i (.sin (.div .theta (.intLit 2))))]

/-- crx_def, the DefGate registering the crx matrix under the name CRX. -/
def crx_def : DefGate := ⟨"CRX", crx⟩

/-- cry_def, the DefGate registering the cry matrix under the name CRY. -/
def cry_def : DefGate := ⟨"CRY", cry⟩

/-- crz_def, the DefGate registering the crz matrix under the name CRZ. -/
def crz_def : DefGate := ⟨"CRZ", crz⟩

/-- CRX = crx_def.get_constructor() of the source. -/
def CRX {α : Type} : GateCtor α := crx_def.get_constructor

/-- CRY = cry_def.get_constructor() of the source. -/
def CRY {α : Type} : GateCtor α := cry_def.get_constructor

/-- CRZ = crx_def.get_constructor() of the source (line 74): the
constructor is taken from crx_def, not crz_def. -/
def CRZ {α : Type} : GateCtor α := crx_def.get_constructor

/-- Native RX constructor imported from pyquil.gates. -/
def RX {α : Type} : GateCtor α := mkNative "RX"

/-- Native RY constructor imported from pyquil.gates. -/
def RY {α : Type} : GateCtor α := mkNative "RY"

/-- Native RZ constructor imported from pyquil.gates. -/
def RZ {α : Type} : GateCtor α := mkNative "RZ"

/-- The class-level gates_dict mapping gate-name strings to
constructors (source lines 76 to 80); Python dict lookup that misses
raises KeyError, modelled by none. -/
def gates_dict {α : Type} : String → Option (GateCtor α) := fun s =>
  if s = "RX" then some RX else
  if s = "CRX" then some CRX else
  if s = "RY" then some RY else
  if s = "CRY" then some CRY else
  if s = "RZ" then some RZ else
  if s = "CRZ" then some CRZ else none

/-- gate_from_axis of the source (lines 231 to 250): formats the key
string from the axis and arity and looks it up in gates_dict. -/
def gate_from_axis {α : Type} (axes : String) (num_qubits : ℕ) : Option (GateCtor α) :=
  let gate_str := "R" ++ axes
  let gate_str := if 2 = num_qubits then "C" ++ gate_str else gate_str
  gates_dict gate_str

/-- The loop body of build_rotation_block (source lines 193 to 196):
for each qubit in order, index the theta list at the running position
(IndexError, modelled by none, when the thetas run out) and emit one
single-qubit instruction. -/
def rot_loop {α : Type} (gate : GateCtor α) : List ℕ → List α → Option (List (Instr α))
  | [], _ => some []
  | _ :: _, [] => none
  | q :: qs, t :: ts =>
    match rot_loop gate qs ts with
    | none => none
    | some rest => some (gate [t] [q] :: rest)

/-- build_rotation_block of the source (lines 174 to 197). -/
def build_rotation_block {α : Type} (axis : String) (qubits : List ℕ) (thetas : List α) :
    Option (List (Instr α)) :=
  match gate_from_axis axis 1 with
  | none => none
  | some gate => rot_loop gate qubits thetas

/-- The loop body of build_controlled_rotation_block (source lines 222
to 228): iterate the qubits in order; skip the control qubit; for
every other qubit consume the next theta (IndexError, modelled by
none, when they run out) and emit one controlled instruction with the
control listed first. -/
def ctrl_loop {α : Type} (gate : GateCtor α) (qubit_control : ℕ) :
    List ℕ → List α → Option (List (Instr α))
  | [], _ => some []
  | q :: qs, ts =>
    if q = qubit_control then ctrl_loop gate qubit_control qs ts
    else
      match ts with
      | [] => none
      | t :: ts' =>
        match ctrl_loop gate qubit_control qs ts' with
        | none => none
        | some rest => some (gate [t] [qubit_control, q] :: rest)

/-- build_controlled_rotation_block of the source (lines 199 to 229). -/
def build_controlled_rotation_block {α : Type} (axis : String) (qubits : List ℕ)
    (thetas : List α) (qubit_control : ℕ) : Option (List (Instr α)) :=
  match gate_from_axis axis 2 with
  | none => none
  | some gate => ctrl_loop gate qubit_control qubits thetas

/-- First-match association-list lookup, the building block for the
Python dict built in dagger_and_flip. -/
def dict_lookup : List (ℕ × ℕ) → ℕ → Option ℕ
  | [], _ => none
  | (k, v) :: rest, q => if q = k then some v else dict_lookup rest q

/-- qubits_reversed = dict(zip(qubits, reversed(qubits))) of the
source (line 278), as a lookup function.  In a Python dict the last
binding of a duplicated key wins, hence the first match in the
reversed pair list. -/
def qubits_reversed (qubits : List ℕ) (q : ℕ) : Option ℕ :=
  dict_lookup ((qubits.zip qubits.reverse).reverse) q

/-- The inner loop of dagger_and_flip over the qubits of one instruction
(source lines 281 to 283): each index is sent through the reversal
dict; a missing key raises KeyError, modelled by none. -/
def qmap_loop (qubits : List ℕ) : List ℕ → Option (List ℕ)
  | [] => some []
  | q :: qs =>
    match qubits_reversed qubits q with
    | none => none
    | some v =>
      match qmap_loop qubits qs with
      | none => none
      | some rest => some (v :: rest)

/-- The per-instruction body of dagger_and_flip (source lines 281 to
287): remap the qubits, negate every parameter by multiplying with -1,
look the gate name up in gates_dict and rebuild the instruction with
that constructor. -/
def flip_instr {α : Type} [Ring α] (qubits : List ℕ) (g : Instr α) : Option (Instr α) :=
  match qmap_loop qubits g.qubits with
  | none => none
  | some gate_qubits =>
    match gates_dict g.name with
    | none => none
    | some ctor => some (ctor (g.params.map fun x => -1 * x) gate_qubits)

/-- The outer loop of dagger_and_flip, appending the flipped
instructions in iteration order. -/
def flip_loop {α : Type} [Ring α] (qubits : List ℕ) : List (Instr α) → Option (List (Instr α))
  | [] => some []
  | g :: gs =>
    match flip_instr qubits g with
    | none => none
    | some g' =>
      match flip_loop qubits gs with
      | none => none
      | some rest => some (g' :: rest)

/-- dagger_and_flip of the source (lines 252 to 289): process the
instructions of the program in reverse order through flip_instr. -/
def dagger_and_flip {α : Type} [Ring α] (program : List (Instr α)) (qubits : List ℕ) :
    Option (List (Instr α)) :=
  flip_loop qubits program.reverse

/-- The state of a QAECircuit object after __init__: the five
configuration attributes (num_input_qubits and self.program are
derived and threaded separately). -/
structure QAECircuit (α : Type) where
  num_qubits : ℕ
  num_latent_qubits : ℕ
  thetas : List α
  axes : List String
  qubits : List ℕ
deriving DecidableEq

/-- num_input_qubits = int((num_qubits + num_latent_qubits) / 2) of
the source (line 111). -/
def QAECircuit.num_input_qubits {α : Type} (c : QAECircuit α) : ℕ :=
  (c.num_qubits + c.num_latent_qubits) / 2

/-- The qubit-default loop of __init__ (source lines 113 to 116):
start from the empty list and append 0, 1, ... num_qubits - 1. -/
def default_qubits (num_qubits : ℕ) : List ℕ :=
  (List.range num_qubits).foldl (fun acc i => acc ++ [i]) []

/-- __init__ of the source (lines 82 to 127): store the configuration,
defaulting qubits to 0 .. num_qubits - 1 and axes to
num_input_qubits + 2 copies of X. -/
def QAECircuit.init {α : Type} (num_qubits num_latent_qubits : ℕ) (thetas : List α)
    (axes : Option (List String)) (qubits : Option (List ℕ)) : QAECircuit α :=
  { num_qubits := num_qubits
    num_latent_qubits := num_latent_qubits
    thetas := thetas
    axes :=
      match axes with
      | none => List.replicate ((num_qubits + num_latent_qubits) / 2 + 2) "X"
      | some a => a
    qubits :=
      match qubits with
      | none => default_qubits num_qubits
      | some qs => qs }

/-- Outcome of a statement sequence that mutates self.program: either
it finishes with the new value of self.program, or an exception
escapes while self.program holds the instructions accumulated so
far. -/
inductive BuildRes (α : Type) where
  | ok : List (Instr α) → BuildRes α
  | err : List (Instr α) → BuildRes α
deriving DecidableEq

/-- The for-loop of build_circuit (source lines 156 to 164) over the
remaining loop indices: for each index i pick axes at i + 1 and the
control qubit at i, slice the thetas (Python slicing, which silently
truncates at the end of the list) and append the controlled block to
self.program. -/
def encode_loop {α : Type} (c : QAECircuit α) (qubits : List ℕ) (n : ℕ) :
    List ℕ → List (Instr α) → BuildRes α
  | [], prog => .ok prog
  | i :: rest, prog =>
    match c.axes.get? (i + 1) with
    | none => .err prog
    | some axis =>
      match qubits.get? i with
      | none => .err prog
      | some control_qubit =>
        match build_controlled_rotation_block axis qubits
            ((c.thetas.drop (n + (n - 1) * i)).take (n - 1)) control_qubit with
        | none => .err prog
        | some block => encode_loop c qubits n rest (prog ++ block)

/-- The encode-stage portion of build_circuit (source lines 149 to
171), started from the current value p0 of self.program: the initial
rotation block, the n controlled blocks, and the final rotation
block, each appended to self.program in order.  The def-gates preamble
of line 149 contributes gate definitions, not instructions. -/
def encode_from {α : Type} (c : QAECircuit α) (p0 : List (Instr α)) : BuildRes α :=
  match c.axes.get? 0 with
  | none => .err p0
  | some axis0 =>
    match build_rotation_block axis0 (c.qubits.take c.num_input_qubits)
        (c.thetas.take c.num_input_qubits) with
    | none => .err p0
    | some b0 =>
      match encode_loop c (c.qubits.take c.num_input_qubits) c.num_input_qubits
          (List.range c.num_input_qubits) (p0 ++ b0) with
      | .err p => .err p
      | .ok p1 =>
        match c.axes.get? (c.num_input_qubits + 1) with
        | none => .err p1
        | some axisF =>
          match build_rotation_block axisF (c.qubits.take c.num_input_qubits)
              ((c.thetas.drop (c.num_input_qubits +
                (c.num_input_qubits - 1) * c.num_input_qubits)).take c.num_input_qubits) with
          | none => .err p1
          | some bF => .ok (p1 ++ bF)

/-- The encode stage built from a fresh object, whose __init__ set
self.program to the empty program. -/
def encode_program {α : Type} (c : QAECircuit α) : BuildRes α :=
  encode_from c []

/-- Observable outcome of one build_circuit call on an object: the
returned program (none when an exception escapes) together with the
value of the self.program attribute afterwards. -/
structure BuildOutcome (α : Type) where
  result : Option (List (Instr α))
  self_program : List (Instr α)
deriving DecidableEq

/-- build_circuit of the source (lines 140 to 172) on an object whose
self.program currently holds p0: accumulate the encode stage into
self.program, then return self.program concatenated with its
dagger_and_flip under the full qubit list.  On an exception the result
is none and self.program keeps what was accumulated. -/
def build_circuit_stateful {α : Type} [Ring α] (c : QAECircuit α) (p0 : List (Instr α)) :
    BuildOutcome α :=
  match encode_from c p0 with
  | .err p => ⟨none, p⟩
  | .ok sp =>
    match dagger_and_flip sp c.qubits with
    | none => ⟨none, sp⟩
    | some dec => ⟨some (sp ++ dec), sp⟩

/-- build_circuit on a freshly initialized object. -/
def build_circuit {α : Type} [Ring α] (c : QAECircuit α) : BuildOutcome α :=
  build_circuit_stateful c []

/-- The gate-name strings that gates_dict constructors can actually
stamp onto instructions; the CRZ key is absent because its registry
entry stamps CRX. -/
def goodNames : List String :=
  ["RX", "RY", "RZ", "CRX", "CRY"]

/-- The valid axis strings. -/
def axisNames : List String :=
  ["X", "Y", "Z"]

/-- The total position-reversal map read off the reversal dict,
defaulting (never hit in the lemmas that use it) to 0. -/
def revMap (qubits : List ℕ) (q : ℕ) : ℕ :=
  (qubits_reversed qubits q).getD 0

/-- The per-instruction action of dagger_and_flip as a total function:
same name, parameters negated, qubits sent through the reversal map. -/
def tflip {α : Type} [Ring α] (qubits : List ℕ) (g : Instr α) : Instr α :=
  ⟨g.name, g.params.map fun x => -1 * x, g.qubits.map (revMap qubits)⟩

section LookupLemmas

theorem dict_lookup_eq_none {l : List (ℕ × ℕ)} {q : ℕ} (h : ∀ p ∈ l, p.1 ≠ q) :
    dict_lookup l q = none := by
  induction l with
  | nil => rfl
  | cons p rest ih =>
    obtain ⟨k, v⟩ := p
    have hk : k ≠ q := h (k, v) (by simp)
    simp only [dict_lookup]
    rw [if_neg (fun hq => hk hq.symm)]
    exact ih fun p hp => h p (by simp [hp])

theorem dict_lookup_append (l₁ l₂ : List (ℕ × ℕ)) (q : ℕ) :
    dict_lookup (l₁ ++ l₂) q =
      match dict_lookup l₁ q with
      | some v => some v
      | none => dict_lookup l₂ q := by
  induction l₁ with
  | nil => simp [dict_lookup]
  | cons p rest ih =>
    obtain ⟨k, v⟩ := p
    by_cases hq : q = k
    · simp [dict_lookup, hq]
    · simp only [List.cons_append, dict_lookup, if_neg hq]
      exact ih

theorem dict_lookup_reverse_of_nodup {l : List (ℕ × ℕ)} (h : (l.map Prod.fst).Nodup)
    (q : ℕ) : dict_lookup l.reverse q = dict_lookup l q := by
  induction l with
  | nil => rfl
  | cons p rest ih =>
    obtain ⟨k, v⟩ := p
    simp only [List.map_cons, List.nodup_cons] at h
    obtain ⟨hk, hrest⟩ := h
    simp only [List.reverse_cons, dict_lookup_append, ih hrest]
    by_cases hq : q = k
    · subst hq
      have : dict_lookup rest q = none := by
        refine dict_lookup_eq_none fun p hp hpq => hk ?_
        exact hpq ▸ List.mem_map_of_mem Prod.fst hp
      simp [this, dict_lookup]
    · simp only [dict_lookup, if_neg hq]
      cases dict_lookup rest q <;> simp [dict_lookup]

theorem dict_lookup_mem {l : List (ℕ × ℕ)} {q : ℕ} (h : ∃ p ∈ l, p.1 = q) :
    ∃ v, dict_lookup l q = some v ∧ (q, v) ∈ l := by
  induction l with
  | nil => simp at h
  | cons p rest ih =>
    obtain ⟨k, v⟩ := p
    by_cases hq : q = k
    · exact ⟨v, by simp [dict_lookup, hq], by simp [hq]⟩
    · obtain ⟨p', hp', hp'q⟩ := h
      rcases List.mem_cons.mp hp' with h1 | h1
      · exact absurd (h1 ▸ hp'q).symm hq
      · obtain ⟨w, hw, hwm⟩ := ih ⟨p', h1, hp'q⟩
        exact ⟨w, by simp [dict_lookup, if_neg hq, hw], by simp [hwm]⟩

theorem dict_lookup_zip_get {l₁ l₂ : List ℕ} (h : l₁.Nodup) (k : ℕ)
    (h1 : k < l₁.length) (h2 : k < l₂.length) :
    dict_lookup (l₁.zip l₂) (l₁.get ⟨k, h1⟩) = some (l₂.get ⟨k, h2⟩) := by
  induction l₁ generalizing l₂ k with
  | nil => simp at h1
  | cons a t₁ ih =>
    cases l₂ with
    | nil => simp at h2
    | cons b t₂ =>
      cases k with
      | zero => simp [dict_lookup]
      | succ k' =>
        have hnd := (List.nodup_cons.mp h).2
        have ha : a ∉ t₁ := (List.nodup_cons.mp h).1
        have hne : t₁.get ⟨k', by simpa using h1⟩ ≠ a := fun hc =>
          ha (hc ▸ List.get_mem t₁ _ _)
        simp only [List.zip_cons_cons, List.get, dict_lookup, if_neg hne]
        exact ih hnd k' _ _

theorem qubits_reversed_get {Q : List ℕ} (h : Q.Nodup) (k : ℕ) (hk : k < Q.length) :
    qubits_reversed Q (Q.get ⟨k, hk⟩) =
      some (Q.get ⟨Q.length - 1 - k, by omega⟩) := by
  have hlen : Q.length ≤ Q.reverse.length := by simp
  have hmap : (Q.zip Q.reverse).map Prod.fst = Q := List.map_fst_zip Q Q.reverse hlen
  have hnd : ((Q.zip Q.reverse).map Prod.fst).Nodup := by rw [hmap]; exact h
  unfold qubits_reversed
  rw [dict_lookup_reverse_of_nodup hnd]
  have h2 : k < Q.reverse.length := by simpa using hk
  rw [dict_lookup_zip_get h k hk h2]
  congr 1
  exact List.get_reverse' Q ⟨k, h2⟩ (by simp at h2 ⊢; omega)

theorem qubits_reversed_of_not_mem {Q : List ℕ} {q : ℕ} (h : q ∉ Q) :
    qubits_reversed Q q = none := by
  refine dict_lookup_eq_none fun p hp hpq => h ?_
  have hp' := List.mem_reverse.mp hp
  exact hpq ▸ (List.of_mem_zip hp').1

theorem qubits_reversed_mem {Q : List ℕ} {q : ℕ} (h : q ∈ Q) :
    ∃ v, qubits_reversed Q q = some v ∧ v ∈ Q := by
  obtain ⟨⟨k, hk⟩, hq⟩ := List.mem_iff_get.mp h
  have hk2 : k < Q.reverse.length := by simpa using hk
  have hkz : k < (Q.zip Q.reverse).length := by
    simp only [List.length_zip, List.length_reverse, lt_min_iff]
    exact ⟨hk, by simpa using hk⟩
  have hmem : (q, Q.reverse.get ⟨k, hk2⟩) ∈ (Q.zip Q.reverse).reverse := by
    rw [List.mem_reverse]
    have := @List.get_zip ℕ ℕ Q Q.reverse ⟨k, hkz⟩
    rw [← hq]
    exact this ▸ List.get_mem _ _ _
  obtain ⟨v, hv, hvm⟩ := dict_lookup_mem ⟨_, hmem, rfl⟩
  refine ⟨v, hv, ?_⟩
  have := (List.of_mem_zip (List.mem_reverse.mp hvm)).2
  exact List.mem_reverse.mp this

end LookupLemmas

section RevMapLemmas

theorem qubits_reversed_eq_revMap {Q : List ℕ} {q : ℕ} (h : q ∈ Q) :
    qubits_reversed Q q = some (revMap Q q) := by
  obtain ⟨v, hv, _⟩ := qubits_reversed_mem h
  simp [revMap, hv]

theorem revMap_mem {Q : List ℕ} {q : ℕ} (h : q ∈ Q) : revMap Q q ∈ Q := by
  obtain ⟨v, hv, hvm⟩ := qubits_reversed_mem h
  simpa [revMap, hv] using hvm

theorem revMap_get {Q : List ℕ} (h : Q.Nodup) (k : ℕ) (hk : k < Q.length) :
    revMap Q (Q.get ⟨k, hk⟩) = Q.get ⟨Q.length - 1 - k, by omega⟩ := by
  unfold revMap
  rw [qubits_reversed_get h k hk]
  rfl

theorem revMap_revMap {Q : List ℕ} (h : Q.Nodup) {q : ℕ} (hq : q ∈ Q) :
    revMap Q (revMap Q q) = q := by
  obtain ⟨⟨k, hk⟩, rfl⟩ := List.mem_iff_get.mp hq
  rw [revMap_get h k hk, revMap_get h (Q.length - 1 - k) (by omega)]
  congr 1
  exact Fin.ext (by simp; omega)

end RevMapLemmas

section QmapLemmas

theorem qmap_loop_eq_map {Q qs : List ℕ} (h : ∀ q ∈ qs, q ∈ Q) :
    qmap_loop Q qs = some (qs.map (revMap Q)) := by
  induction qs with
  | nil => rfl
  | cons q rest ih =>
    have hq : q ∈ Q := h q (by simp)
    simp only [qmap_loop, qubits_reversed_eq_revMap hq,
      ih fun x hx => h x (by simp [hx]), List.map_cons]

theorem qmap_loop_none {Q qs : List ℕ} {q : ℕ} (hq : q ∈ qs)
    (h : qubits_reversed Q q = none) : qmap_loop Q qs = none := by
  induction qs with
  | nil => simp at hq
  | cons a rest ih =>
    rcases List.mem_cons.mp hq with rfl | hmem
    · simp [qmap_loop, h]
    · simp only [qmap_loop]
      cases qubits_reversed Q a with
      | none => rfl
      | some v => rw [ih hmem]

end QmapLemmas

section GatesDictLemmas

theorem gates_dict_good {α : Type} {m : String} (h : m ∈ goodNames) :
    gates_dict (α := α) m = some (mkNative m) := by
  simp only [goodNames, List.mem_cons, List.not_mem_nil, or_false] at h
  rcases h with rfl | rfl | rfl | rfl | rfl <;> rfl

theorem gates_dict_shape {α : Type} {s : String} {c : GateCtor α}
    (h : gates_dict (α := α) s = some c) : ∃ m ∈ goodNames, c = mkNative m := by
  unfold gates_dict at h
  split_ifs at h with h1 h2 h3 h4 h5 h6
  · exact ⟨"RX", by decide, (Option.some.inj h).symm⟩
  · exact ⟨"CRX", by decide, (Option.some.inj h).symm⟩
  · exact ⟨"RY", by decide, (Option.some.inj h).symm⟩
  · exact ⟨"CRY", by decide, (Option.some.inj h).symm⟩
  · exact ⟨"RZ", by decide, (Option.some.inj h).symm⟩
  · exact ⟨"CRX", by decide, (Option.some.inj h).symm⟩

theorem gates_dict_keys {α : Type} {s : String} {c : GateCtor α}
    (h : gates_dict (α := α) s = some c) :
    s = "RX" ∨ s = "CRX" ∨ s = "RY" ∨ s = "CRY" ∨ s = "RZ" ∨ s = "CRZ" := by
  unfold gates_dict at h
  split_ifs at h with h1 h2 h3 h4 h5 h6
  · exact Or.inl h1
  · exact Or.inr (Or.inl h2)
  · exact Or.inr (Or.inr (Or.inl h3))
  · exact Or.inr (Or.inr (Or.inr (Or.inl h4)))
  · exact Or.inr (Or.inr (Or.inr (Or.inr (Or.inl h5))))
  · exact Or.inr (Or.inr (Or.inr (Or.inr (Or.inr h6))))

theorem gate_from_axis_valid1 {α : Type} {a : String} (h : a ∈ axisNames) :
    ∃ m ∈ goodNames, gate_from_axis (α := α) a 1 = some (mkNative m) := by
  simp only [axisNames, List.mem_cons, List.not_mem_nil, or_false] at h
  rcases h with rfl | rfl | rfl
  · exact ⟨"RX", by decide, rfl⟩
  · exact ⟨"RY", by decide, rfl⟩
  · exact ⟨"RZ", by decide, rfl⟩

theorem gate_from_axis_valid2 {α : Type} {a : String} (h : a ∈ axisNames) :
    ∃ m ∈ goodNames, gate_from_axis (α := α) a 2 = some (mkNative m) := by
  simp only [axisNames, List.mem_cons, List.not_mem_nil, or_false] at h
  rcases h with rfl | rfl | rfl
  · exact ⟨"CRX", by decide, rfl⟩
  · exact ⟨"CRY", by decide, rfl⟩
  · exact ⟨"CRX", by decide, rfl⟩

theorem gate_from_axis_invalid {α : Type} {a : String} (ha : a ∉ axisNames) (k : ℕ) :
    gate_from_axis (α := α) a k = none := by
  obtain ⟨d⟩ := a
  show gates_dict (if 2 = k then "C" ++ ("R" ++ String.mk d) else "R" ++ String.mk d) = none
  by_cases h2 : 2 = k
  · rw [if_pos h2]
    cases hgd : gates_dict (α := α) ("C" ++ ("R" ++ String.mk d)) with
    | none => rfl
    | some c =>
      exfalso
      rcases gates_dict_keys hgd with hc | hc | hc | hc | hc | hc
      · exact absurd (congrArg String.data hc : 'C' :: 'R' :: d = ['R', 'X']) (by simp)
      · have hd : 'C' :: 'R' :: d = ['C', 'R', 'X'] := congrArg String.data hc
        simp only [List.cons.injEq, true_and] at hd
        exact ha (by rw [show String.mk d = "X" by rw [hd]]; decide)
      · exact absurd (congrArg String.data hc : 'C' :: 'R' :: d = ['R', 'Y']) (by simp)
      · have hd : 'C' :: 'R' :: d = ['C', 'R', 'Y'] := congrArg String.data hc
        simp only [List.cons.injEq, true_and] at hd
        exact ha (by rw [show String.mk d = "Y" by rw [hd]]; decide)
      · exact absurd (congrArg String.data hc : 'C' :: 'R' :: d = ['R', 'Z']) (by simp)
      · have hd : 'C' :: 'R' :: d = ['C', 'R', 'Z'] := congrArg String.data hc
        simp only [List.cons.injEq, true_and] at hd
        exact ha (by rw [show String.mk d = "Z" by rw [hd]]; decide)
  · rw [if_neg h2]
    cases hgd : gates_dict (α := α) ("R" ++ String.mk d) with
    | none => rfl
    | some c =>
      exfalso
      rcases gates_dict_keys hgd with hc | hc | hc | hc | hc | hc
      · have hd : 'R' :: d = ['R', 'X'] := congrArg String.data hc
        simp only [List.cons.injEq, true_and] at hd
        exact ha (by rw [show String.mk d = "X" by rw [hd]]; decide)
      · exact absurd (congrArg String.data hc : 'R' :: d = ['C', 'R', 'X']) (by simp)
      · have hd : 'R' :: d = ['R', 'Y'] := congrArg String.data hc
        simp only [List.cons.injEq, true_and] at hd
        exact ha (by rw [show String.mk d = "Y" by rw [hd]]; decide)
      · exact absurd (congrArg String.data hc : 'R' :: d = ['C', 'R', 'Y']) (by simp)
      · have hd : 'R' :: d = ['R', 'Z'] := congrArg String.data hc
        simp only [List.cons.injEq, true_and] at hd
        exact ha (by rw [show String.mk d = "Z" by rw [hd]]; decide)
      · exact absurd (congrArg String.data hc : 'R' :: d = ['C', 'R', 'Z']) (by simp)

end GatesDictLemmas

section BlockLemmas

theorem rot_loop_eq_some {α : Type} (gate : GateCtor α) (qs : List ℕ) (ts : List α)
    (h : qs.length ≤ ts.length) :
    rot_loop gate qs ts = some (List.zipWith (fun q t => gate [t] [q]) qs ts) := by
  induction qs generalizing ts with
  | nil => rfl
  | cons q rest ih =>
    cases ts with
    | nil => simp at h
    | cons t ts' =>
      simp only [rot_loop, ih ts' (by simpa using h), List.zipWith_cons_cons]

theorem rot_loop_eq_none {α : Type} (gate : GateCtor α) (qs : List ℕ) (ts : List α)
    (h : ts.length < qs.length) : rot_loop gate qs ts = none := by
  induction qs generalizing ts with
  | nil => simp at h
  | cons q rest ih =>
    cases ts with
    | nil => rfl
    | cons t ts' => simp only [rot_loop, ih ts' (by simpa using h)]

theorem rot_loop_mem {α : Type} {gate : GateCtor α} {qs : List ℕ} {ts : List α}
    {out : List (Instr α)} (h : rot_loop gate qs ts = some out) :
    ∀ g ∈ out, ∃ t q, q ∈ qs ∧ g = gate [t] [q] := by
  induction qs generalizing ts out with
  | nil =>
    cases (Option.some.inj h).symm
    intro g hg
    simp at hg
  | cons q rest ih =>
    cases ts with
    | nil => exact absurd h (by simp [rot_loop])
    | cons t ts' =>
      simp only [rot_loop] at h
      cases hr : rot_loop gate rest ts' with
      | none => rw [hr] at h; exact absurd h (by simp)
      | some r =>
        rw [hr] at h
        cases (Option.some.inj h).symm
        intro g hg
        rcases List.mem_cons.mp hg with rfl | hg'
        · exact ⟨t, q, by simp, rfl⟩
        · obtain ⟨t', q', hq', hgeq⟩ := ih hr g hg'
          exact ⟨t', q', by simp [hq'], hgeq⟩

theorem ctrl_loop_eq_some {α : Type} (gate : GateCtor α) (ctl : ℕ) (qs : List ℕ)
    (ts : List α) (h : (qs.filter fun q => q ≠ ctl).length ≤ ts.length) :
    ctrl_loop gate ctl qs ts =
      some (List.zipWith (fun q t => gate [t] [ctl, q]) (qs.filter fun q => q ≠ ctl) ts) := by
  induction qs generalizing ts with
  | nil => rfl
  | cons q rest ih =>
    by_cases hq : q = ctl
    · subst hq
      have hf : (q :: rest).filter (fun x => x ≠ q) = rest.filter fun x => x ≠ q := by
        simp [List.filter_cons]
      rw [hf] at h ⊢
      simp only [ctrl_loop, if_pos rfl]
      exact ih ts h
    · have hf : (q :: rest).filter (fun x => x ≠ ctl) =
          q :: (rest.filter fun x => x ≠ ctl) := by
        simp [List.filter_cons, hq]
      rw [hf] at h ⊢
      cases ts with
      | nil => simp at h
      | cons t ts' =>
        simp only [ctrl_loop, if_neg hq, ih ts' (by simpa using h),
          List.zipWith_cons_cons]

theorem ctrl_loop_mem {α : Type} {gate : GateCtor α} {ctl : ℕ} {qs : List ℕ}
    {ts : List α} {out : List (Instr α)} (h : ctrl_loop gate ctl qs ts = some out) :
    ∀ g ∈ out, ∃ t q, q ∈ qs ∧ g = gate [t] [ctl, q] := by
  induction qs generalizing ts out with
  | nil =>
    cases (Option.some.inj h).symm
    intro g hg
    simp at hg
  | cons q rest ih =>
    by_cases hq : q = ctl
    · simp only [ctrl_loop, if_pos hq] at h
      intro g hg
      obtain ⟨t', q', hq', hgeq⟩ := ih h g hg
      exact ⟨t', q', by simp [hq'], hgeq⟩
    · cases ts with
      | nil =>
        simp only [ctrl_loop, if_neg hq] at h
        exact absurd h (by simp)
      | cons t ts' =>
        simp only [ctrl_loop, if_neg hq] at h
        cases hr : ctrl_loop gate ctl rest ts' with
        | none => rw [hr] at h; exact absurd h (by simp)
        | some r =>
          rw [hr] at h
          cases (Option.some.inj h).symm
          intro g hg
          rcases List.mem_cons.mp hg with rfl | hg'
          · exact ⟨t, q, by simp, rfl⟩
          · obtain ⟨t', q', hq', hgeq⟩ := ih hr g hg'
            exact ⟨t', q', by simp [hq'], hgeq⟩

theorem filter_ne_length {qs : List ℕ} {ctl : ℕ} (hnd : qs.Nodup) (hm : ctl ∈ qs) :
    (qs.filter fun q => q ≠ ctl).length = qs.length - 1 := by
  induction qs with
  | nil => simp at hm
  | cons a rest ih =>
    obtain ⟨ha, hrest⟩ := List.nodup_cons.mp hnd
    by_cases hq : a = ctl
    · subst hq
      have hself : rest.filter (fun x => x ≠ a) = rest :=
        List.filter_eq_self.mpr fun x hx => by
          simp only [decide_eq_true_eq]
          exact fun hc => ha (hc ▸ hx)
      rw [List.filter_cons, if_neg (by simp), hself]
      simp
    · have hm' : ctl ∈ rest := by
        rcases List.mem_cons.mp hm with h | h
        · exact absurd h.symm hq
        · exact h
      have hpos : 0 < rest.length := List.length_pos.mpr (by rintro rfl; simp at hm')
      rw [List.filter_cons, if_pos (by simp [hq])]
      simp only [List.length_cons, ih hrest hm']
      omega

end BlockLemmas

section FlipLemmas

theorem flip_instr_good {α : Type} [Ring α] {Q : List ℕ} {g : Instr α}
    (hn : g.name ∈ goodNames) (hq : ∀ q ∈ g.qubits, q ∈ Q) :
    flip_instr Q g = some (tflip Q g) := by
  unfold flip_instr
  rw [qmap_loop_eq_map hq, gates_dict_good hn]
  rfl

theorem flip_loop_eq_map {α : Type} [Ring α] {Q : List ℕ} {l : List (Instr α)}
    (h : ∀ g ∈ l, g.name ∈ goodNames ∧ ∀ q ∈ g.qubits, q ∈ Q) :
    flip_loop Q l = some (l.map (tflip Q)) := by
  induction l with
  | nil => rfl
  | cons g rest ih =>
    obtain ⟨hn, hq⟩ := h g (by simp)
    simp only [flip_loop, flip_instr_good hn hq,
      ih fun g' hg' => h g' (by simp [hg']), List.map_cons]

theorem flip_loop_none {α : Type} [Ring α] {Q : List ℕ} {l : List (Instr α)}
    {g : Instr α} (hg : g ∈ l) (h : flip_instr Q g = none) : flip_loop Q l = none := by
  induction l with
  | nil => simp at hg
  | cons a rest ih =>
    rcases List.mem_cons.mp hg with rfl | hmem
    · simp [flip_loop, h]
    · simp only [flip_loop]
      cases flip_instr Q a with
      | none => rfl
      | some g' => rw [ih hmem]

theorem flip_loop_get {α : Type} [Ring α] {Q : List ℕ} {l r : List (Instr α)}
    (h : flip_loop Q l = some r) :
    r.length = l.length ∧ ∀ k (hk : k < l.length) (hk' : k < r.length),
      flip_instr Q (l.get ⟨k, hk⟩) = some (r.get ⟨k, hk'⟩) := by
  induction l generalizing r with
  | nil =>
    cases (Option.some.inj h).symm
    exact ⟨rfl, fun k hk => by simp at hk⟩
  | cons g rest ih =>
    simp only [flip_loop] at h
    cases hf : flip_instr Q g with
    | none => rw [hf] at h; exact absurd h (by simp)
    | some g' =>
      rw [hf] at h
      cases hr : flip_loop Q rest with
      | none => rw [hr] at h; exact absurd h (by simp)
      | some rr =>
        rw [hr] at h
        cases (Option.some.inj h).symm
        obtain ⟨hlen, hget⟩ := ih hr
        refine ⟨by simp [hlen], fun k hk hk' => ?_⟩
        cases k with
        | zero => simpa using hf
        | succ k' => exact hget k' (by simpa using hk) (by simpa using hk')

theorem dagger_eq_map {α : Type} [Ring α] {Q : List ℕ} {P : List (Instr α)}
    (h : ∀ g ∈ P, g.name ∈ goodNames ∧ ∀ q ∈ g.qubits, q ∈ Q) :
    dagger_and_flip P Q = some (P.reverse.map (tflip Q)) :=
  flip_loop_eq_map fun g hg => h g (List.mem_reverse.mp hg)

theorem dagger_mirror {α : Type} [Ring α] {Q : List ℕ} {P D : List (Instr α)}
    (h : dagger_and_flip P Q = some D) :
    D.length = P.length ∧ ∀ k (hk : k < P.length) (hk' : k < D.length),
      flip_instr Q (P.get ⟨P.length - 1 - k, by omega⟩) = some (D.get ⟨k, hk'⟩) := by
  obtain ⟨hlen, hget⟩ := flip_loop_get h
  rw [List.length_reverse] at hlen
  refine ⟨hlen, fun k hk hk' => ?_⟩
  have hkr : k < P.reverse.length := by simpa using hk
  have := hget k hkr hk'
  rwa [List.get_reverse' P ⟨k, hkr⟩ (by simp; omega)] at this

end FlipLemmas

section EncodeLemmas

theorem gate_from_axis_shape {α : Type} {a : String} {k : ℕ} {gate : GateCtor α}
    (h : gate_from_axis (α := α) a k = some gate) : ∃ m ∈ goodNames, gate = mkNative m := by
  unfold gate_from_axis at h
  exact gates_dict_shape h

theorem build_rot_mem {α : Type} {axis : String} {qs : List ℕ} {ts : List α}
    {out : List (Instr α)} (h : build_rotation_block axis qs ts = some out) :
    ∀ g ∈ out, g.name ∈ goodNames ∧ ∀ q ∈ g.qubits, q ∈ qs := by
  unfold build_rotation_block at h
  cases hg : gate_from_axis (α := α) axis 1 with
  | none => rw [hg] at h; exact absurd h (by simp)
  | some gate =>
    rw [hg] at h
    obtain ⟨m, hm, rfl⟩ := gate_from_axis_shape hg
    intro g hgmem
    obtain ⟨t, q, hq, rfl⟩ := rot_loop_mem h g hgmem
    refine ⟨hm, fun x hx => ?_⟩
    have hxq : x = q := by simpa [mkNative] using hx
    exact hxq ▸ hq

theorem build_ctrl_mem {α : Type} {axis : String} {qs : List ℕ} {ts : List α}
    {ctl : ℕ} {out : List (Instr α)} (hctl : ctl ∈ qs)
    (h : build_controlled_rotation_block axis qs ts ctl = some out) :
    ∀ g ∈ out, g.name ∈ goodNames ∧ ∀ q ∈ g.qubits, q ∈ qs := by
  unfold build_controlled_rotation_block at h
  cases hg : gate_from_axis (α := α) axis 2 with
  | none => rw [hg] at h; exact absurd h (by simp)
  | some gate =>
    rw [hg] at h
    obtain ⟨m, hm, rfl⟩ := gate_from_axis_shape hg
    intro g hgmem
    obtain ⟨t, q, hq, rfl⟩ := ctrl_loop_mem h g hgmem
    refine ⟨hm, fun x hx => ?_⟩
    rcases List.mem_cons.mp hx with rfl | hx'
    · exact hctl
    · have hxq : x = q := by simpa using hx'
      exact hxq ▸ hq

theorem encode_loop_append_ok {α : Type} {c : QAECircuit α} {qubits : List ℕ} {n : ℕ}
    {is₁ : List ℕ} {prog p : List (Instr α)} (is₂ : List ℕ)
    (h : encode_loop c qubits n is₁ prog = .ok p) :
    encode_loop c qubits n (is₁ ++ is₂) prog = encode_loop c qubits n is₂ p := by
  induction is₁ generalizing prog with
  | nil => cases BuildRes.ok.inj h; rfl
  | cons i rest ih =>
    simp only [encode_loop] at h
    simp only [List.cons_append, encode_loop]
    cases hax : c.axes.get? (i + 1) with
    | none => simp only [hax] at h; exact BuildRes.noConfusion h
    | some axis =>
      simp only [hax] at h ⊢
      cases hq : qubits.get? i with
      | none => simp only [hq] at h; exact BuildRes.noConfusion h
      | some ctl =>
        simp only [hq] at h ⊢
        cases hb : build_controlled_rotation_block axis qubits
            ((c.thetas.drop (n + (n - 1) * i)).take (n - 1)) ctl with
        | none => simp only [hb] at h; exact BuildRes.noConfusion h
        | some block =>
          simp only [hb] at h ⊢
          exact ih h

theorem encode_loop_append_err {α : Type} {c : QAECircuit α} {qubits : List ℕ} {n : ℕ}
    {is₁ : List ℕ} {prog p : List (Instr α)} (is₂ : List ℕ)
    (h : encode_loop c qubits n is₁ prog = .err p) :
    encode_loop c qubits n (is₁ ++ is₂) prog = .err p := by
  induction is₁ generalizing prog with
  | nil => exact BuildRes.noConfusion h
  | cons i rest ih =>
    simp only [encode_loop] at h
    simp only [List.cons_append, encode_loop]
    cases hax : c.axes.get? (i + 1) with
    | none => simp only [hax] at h ⊢; exact h
    | some axis =>
      simp only [hax] at h ⊢
      cases hq : qubits.get? i with
      | none => simp only [hq] at h ⊢; exact h
      | some ctl =>
        simp only [hq] at h ⊢
        cases hb : build_controlled_rotation_block axis qubits
            ((c.thetas.drop (n + (n - 1) * i)).take (n - 1)) ctl with
        | none => simp only [hb] at h ⊢; exact h
        | some block =>
          simp only [hb] at h ⊢
          exact ih h

theorem encode_loop_ok {α : Type} (c : QAECircuit α) (n : ℕ)
    (hnd : (c.qubits.take n).Nodup) (hlen : n ≤ c.qubits.length) :
    ∀ is : List ℕ,
      (∀ i ∈ is, i < n ∧
        (∃ a ∈ axisNames, c.axes.get? (i + 1) = some a) ∧
        n + (n - 1) * (i + 1) ≤ c.thetas.length) →
      ∀ prog : List (Instr α), ∃ added,
        encode_loop c (c.qubits.take n) n is prog = .ok (prog ++ added) ∧
        added.length = (n - 1) * is.length ∧
        ∀ g ∈ added, g.name ∈ goodNames ∧ ∀ q ∈ g.qubits, q ∈ c.qubits.take n := by
  intro is
  induction is with
  | nil =>
    intro _ prog
    exact ⟨[], by simp [encode_loop], by simp, by simp⟩
  | cons i rest ih =>
    intro hcond prog
    obtain ⟨hi, ⟨a, ha, hax⟩, hth⟩ := hcond i (by simp)
    have hmul : (n - 1) * (i + 1) = (n - 1) * i + (n - 1) := by ring
    have hqlen : (c.qubits.take n).length = n := by
      rw [List.length_take]; omega
    have hi' : i < (c.qubits.take n).length := by omega
    have hget : (c.qubits.take n).get? i = some ((c.qubits.take n).get ⟨i, hi'⟩) :=
      List.get?_eq_get hi'
    have hctlmem : (c.qubits.take n).get ⟨i, hi'⟩ ∈ c.qubits.take n :=
      List.get_mem _ _ _
    obtain ⟨m, hm, hgate⟩ := gate_from_axis_valid2 (α := α) ha
    have hts : ((c.thetas.drop (n + (n - 1) * i)).take (n - 1)).length = n - 1 := by
      rw [List.length_take, List.length_drop]
      omega
    have hfl : ((c.qubits.take n).filter
        fun q => q ≠ (c.qubits.take n).get ⟨i, hi'⟩).length = n - 1 := by
      rw [filter_ne_length hnd hctlmem, hqlen]
    have hbcr : build_controlled_rotation_block a (c.qubits.take n)
        ((c.thetas.drop (n + (n - 1) * i)).take (n - 1))
        ((c.qubits.take n).get ⟨i, hi'⟩) =
        some (List.zipWith (fun q t => mkNative m [t] [(c.qubits.take n).get ⟨i, hi'⟩, q])
          ((c.qubits.take n).filter fun q => q ≠ (c.qubits.take n).get ⟨i, hi'⟩)
          ((c.thetas.drop (n + (n - 1) * i)).take (n - 1))) := by
      unfold build_controlled_rotation_block
      rw [hgate]
      exact ctrl_loop_eq_some (mkNative m) _ _ _ (by rw [hfl, hts])
    have hblen : (List.zipWith (fun q t => mkNative m [t] [(c.qubits.take n).get ⟨i, hi'⟩, q])
        ((c.qubits.take n).filter fun q => q ≠ (c.qubits.take n).get ⟨i, hi'⟩)
        ((c.thetas.drop (n + (n - 1) * i)).take (n - 1))).length = n - 1 := by
      rw [List.length_zipWith, hfl, hts, min_self]
    set blk := List.zipWith (fun q t => mkNative m [t] [(c.qubits.take n).get ⟨i, hi'⟩, q])
      ((c.qubits.take n).filter fun q => q ≠ (c.qubits.take n).get ⟨i, hi'⟩)
      ((c.thetas.drop (n + (n - 1) * i)).take (n - 1)) with hblk
    obtain ⟨added', hloop, hlen', hmem'⟩ :=
      ih (fun j hj => hcond j (by simp [hj])) (prog ++ blk)
    refine ⟨blk ++ added', ?_, ?_, ?_⟩
    · simp only [encode_loop, hax, hget, hbcr, hloop]
      rw [List.append_assoc]
    · rw [List.length_append, hblen, hlen', List.length_cons]
      ring
    · intro g hg
      rcases List.mem_append.mp hg with hg' | hg'
      · exact build_ctrl_mem hctlmem hbcr g hg'
      · exact hmem' g hg'

theorem encode_loop_inv {α : Type} {c : QAECircuit α} {qb : List ℕ} {n : ℕ}
    {is : List ℕ} {prog out : List (Instr α)}
    (h : encode_loop c qb n is prog = .ok out) :
    ∀ g ∈ out, g ∈ prog ∨ (g.name ∈ goodNames ∧ ∀ q ∈ g.qubits, q ∈ qb) := by
  induction is generalizing prog with
  | nil =>
    cases BuildRes.ok.inj h
    exact fun g hg => Or.inl hg
  | cons i rest ih =>
    simp only [encode_loop] at h
    cases hax : c.axes.get? (i + 1) with
    | none => simp only [hax] at h; exact BuildRes.noConfusion h
    | some axis =>
      simp only [hax] at h
      cases hq : qb.get? i with
      | none => simp only [hq] at h; exact BuildRes.noConfusion h
      | some ctl =>
        simp only [hq] at h
        cases hb : build_controlled_rotation_block axis qb
            ((c.thetas.drop (n + (n - 1) * i)).take (n - 1)) ctl with
        | none => simp only [hb] at h; exact BuildRes.noConfusion h
        | some block =>
          simp only [hb] at h
          intro g hg
          rcases ih h g hg with hmem | hgood
          · rcases List.mem_append.mp hmem with h1 | h2
            · exact Or.inl h1
            · exact Or.inr (build_ctrl_mem (List.get?_mem hq) hb g h2)
          · exact Or.inr hgood

theorem encode_from_inv {α : Type} {c : QAECircuit α} {p0 enc : List (Instr α)}
    (h : encode_from c p0 = .ok enc) :
    ∀ g ∈ enc, g ∈ p0 ∨ (g.name ∈ goodNames ∧
      ∀ q ∈ g.qubits, q ∈ c.qubits.take c.num_input_qubits) := by
  unfold encode_from at h
  cases ha0 : c.axes.get? 0 with
  | none => simp only [ha0] at h; exact BuildRes.noConfusion h
  | some axis0 =>
    simp only [ha0] at h
    cases hb0 : build_rotation_block axis0 (c.qubits.take c.num_input_qubits)
        (c.thetas.take c.num_input_qubits) with
    | none => simp only [hb0] at h; exact BuildRes.noConfusion h
    | some b0 =>
      simp only [hb0] at h
      cases hloop : encode_loop c (c.qubits.take c.num_input_qubits) c.num_input_qubits
          (List.range c.num_input_qubits) (p0 ++ b0) with
      | err p => simp only [hloop] at h; exact BuildRes.noConfusion h
      | ok p1 =>
        simp only [hloop] at h
        cases haF : c.axes.get? (c.num_input_qubits + 1) with
        | none => simp only [haF] at h; exact BuildRes.noConfusion h
        | some axisF =>
          simp only [haF] at h
          cases hbF : build_rotation_block axisF (c.qubits.take c.num_input_qubits)
              ((c.thetas.drop (c.num_input_qubits +
                (c.num_input_qubits - 1) * c.num_input_qubits)).take c.num_input_qubits) with
          | none => simp only [hbF] at h; exact BuildRes.noConfusion h
          | some bF =>
            simp only [hbF] at h
            cases BuildRes.ok.inj h
            intro g hg
            rcases List.mem_append.mp hg with h1 | h2
            · rcases encode_loop_inv hloop g h1 with hm | hgood
              · rcases List.mem_append.mp hm with hp | hb
                · exact Or.inl hp
                · exact Or.inr (build_rot_mem hb0 g hb)
              · exact Or.inr hgood
            · exact Or.inr (build_rot_mem hbF g h2)

theorem encode_from_ok {α : Type} (c : QAECircuit α)
    (hnd : c.qubits.Nodup)
    (hq : c.num_input_qubits ≤ c.qubits.length)
    (hax : c.axes.length = c.num_input_qubits + 2)
    (haxv : ∀ a ∈ c.axes, a ∈ axisNames)
    (hθ : c.thetas.length = 2 * c.num_input_qubits +
      c.num_input_qubits * (c.num_input_qubits - 1))
    (p0 : List (Instr α)) :
    ∃ enc, encode_from c p0 = .ok (p0 ++ enc) ∧
      enc.length = 2 * c.num_input_qubits +
        c.num_input_qubits * (c.num_input_qubits - 1) ∧
      ∀ g ∈ enc, g.name ∈ goodNames ∧
        ∀ q ∈ g.qubits, q ∈ c.qubits.take c.num_input_qubits := by
  set n := c.num_input_qubits with hn
  have hmulc : (n - 1) * n = n * (n - 1) := Nat.mul_comm _ _
  have hnd' : (c.qubits.take n).Nodup := (List.take_sublist n c.qubits).nodup hnd
  have hql : (c.qubits.take n).length = n := by rw [List.length_take]; omega
  have h0lt : 0 < c.axes.length := by omega
  have ha0 : c.axes.get? 0 = some (c.axes.get ⟨0, h0lt⟩) := List.get?_eq_get h0lt
  have ha0v : c.axes.get ⟨0, h0lt⟩ ∈ axisNames := haxv _ (List.get_mem _ _ _)
  obtain ⟨m0, hm0, hg0⟩ := gate_from_axis_valid1 (α := α) ha0v
  have hts0 : (c.thetas.take n).length = n := by
    rw [List.length_take]; omega
  have hb0 : build_rotation_block (c.axes.get ⟨0, h0lt⟩) (c.qubits.take n)
      (c.thetas.take n) =
      some (List.zipWith (fun q t => mkNative m0 [t] [q]) (c.qubits.take n)
        (c.thetas.take n)) := by
    unfold build_rotation_block
    rw [hg0]
    exact rot_loop_eq_some _ _ _ (by rw [hql, hts0])
  have hb0len : (List.zipWith (fun q t => mkNative m0 [t] [q]) (c.qubits.take n)
      (c.thetas.take n)).length = n := by
    rw [List.length_zipWith, hql, hts0, min_self]
  obtain ⟨added, hloop, hadlen, hadmem⟩ :=
    encode_loop_ok c n hnd' hq (List.range n)
      (fun i hi => by
        have hilt : i < n := List.mem_range.mp hi
        have hi1 : i + 1 < c.axes.length := by omega
        refine ⟨hilt, ⟨c.axes.get ⟨i + 1, hi1⟩, haxv _ (List.get_mem _ _ _),
          List.get?_eq_get hi1⟩, ?_⟩
        have hle : (n - 1) * (i + 1) ≤ (n - 1) * n := Nat.mul_le_mul_left _ (by omega)
        omega)
      (p0 ++ List.zipWith (fun q t => mkNative m0 [t] [q]) (c.qubits.take n)
        (c.thetas.take n))
  have hF : n + 1 < c.axes.length := by omega
  have haF : c.axes.get? (n + 1) = some (c.axes.get ⟨n + 1, hF⟩) := List.get?_eq_get hF
  have haFv : c.axes.get ⟨n + 1, hF⟩ ∈ axisNames := haxv _ (List.get_mem _ _ _)
  obtain ⟨mF, hmF, hgF⟩ := gate_from_axis_valid1 (α := α) haFv
  have htsF : ((c.thetas.drop (n + (n - 1) * n)).take n).length = n := by
    rw [List.length_take, List.length_drop]
    omega
  have hbF : build_rotation_block (c.axes.get ⟨n + 1, hF⟩) (c.qubits.take n)
      ((c.thetas.drop (n + (n - 1) * n)).take n) =
      some (List.zipWith (fun q t => mkNative mF [t] [q]) (c.qubits.take n)
        ((c.thetas.drop (n + (n - 1) * n)).take n)) := by
    unfold build_rotation_block
    rw [hgF]
    exact rot_loop_eq_some _ _ _ (by rw [hql, htsF])
  have hbFlen : (List.zipWith (fun q t => mkNative mF [t] [q]) (c.qubits.take n)
      ((c.thetas.drop (n + (n - 1) * n)).take n)).length = n := by
    rw [List.length_zipWith, hql, htsF, min_self]
  refine ⟨List.zipWith (fun q t => mkNative m0 [t] [q]) (c.qubits.take n)
      (c.thetas.take n) ++ added ++
      List.zipWith (fun q t => mkNative mF [t] [q]) (c.qubits.take n)
        ((c.thetas.drop (n + (n - 1) * n)).take n), ?_, ?_, ?_⟩
  · show encode_from c p0 = _
    unfold encode_from
    rw [← hn]
    simp only [ha0, hb0, hloop, haF, hbF]
    simp [List.append_assoc]
  · simp only [List.length_append, hb0len, hadlen, hbFlen, List.length_range]
    omega
  · intro g hg
    rcases List.mem_append.mp hg with hg' | hgF'
    · rcases List.mem_append.mp hg' with hg0' | hgadd
      · exact build_rot_mem hb0 g hg0'
      · exact hadmem g hgadd
    · exact build_rot_mem hbF g hgF'

theorem build_rot_invalid {α : Type} {axis : String} (h : axis ∉ axisNames)
    (qs : List ℕ) (ts : List α) : build_rotation_block axis qs ts = none := by
  unfold build_rotation_block
  rw [gate_from_axis_invalid h 1]

theorem build_ctrl_invalid {α : Type} {axis : String} (h : axis ∉ axisNames)
    (qs : List ℕ) (ts : List α) (ctl : ℕ) :
    build_controlled_rotation_block axis qs ts ctl = none := by
  unfold build_controlled_rotation_block
  rw [gate_from_axis_invalid h 2]

theorem range_split {j n : ℕ} (h1 : 1 ≤ j) (h2 : j ≤ n) :
    List.range n = List.range (j - 1) ++ ((j - 1) :: List.range' j (n - j)) := by
  have ha := List.range'_append 0 (j - 1) (n - j + 1) 1
  simp only [Nat.one_mul, Nat.zero_add] at ha
  have hb : List.range' (j - 1) (n - j + 1) 1 = (j - 1) :: List.range' j (n - j) := by
    rw [List.range'_succ (j - 1) (n - j) 1, show j - 1 + 1 = j from by omega]
  rw [List.range_eq_range' n, List.range_eq_range' (j - 1), ← hb, ha,
    show n - j + 1 + (j - 1) = n from by omega]

theorem encode_from_err_short {α : Type} (c : QAECircuit α)
    (hn1 : 1 ≤ c.num_input_qubits)
    (hnd : c.qubits.Nodup)
    (hq : c.num_input_qubits ≤ c.qubits.length)
    (hax : c.axes.length = c.num_input_qubits + 2)
    (haxv : ∀ a ∈ c.axes, a ∈ axisNames)
    (hθ : c.thetas.length = 2 * c.num_input_qubits +
      c.num_input_qubits * (c.num_input_qubits - 1) - 1)
    (p0 : List (Instr α)) :
    ∃ leftover, encode_from c p0 = .err (p0 ++ leftover) ∧
      leftover.length = c.num_input_qubits +
        c.num_input_qubits * (c.num_input_qubits - 1) := by
  set n := c.num_input_qubits with hn
  have hmulc : (n - 1) * n = n * (n - 1) := Nat.mul_comm _ _
  have hnd' : (c.qubits.take n).Nodup := (List.take_sublist n c.qubits).nodup hnd
  have hql : (c.qubits.take n).length = n := by rw [List.length_take]; omega
  have h0lt : 0 < c.axes.length := by omega
  have ha0 : c.axes.get? 0 = some (c.axes.get ⟨0, h0lt⟩) := List.get?_eq_get h0lt
  have ha0v : c.axes.get ⟨0, h0lt⟩ ∈ axisNames := haxv _ (List.get_mem _ _ _)
  obtain ⟨m0, hm0, hg0⟩ := gate_from_axis_valid1 (α := α) ha0v
  have hts0 : (c.thetas.take n).length = n := by
    rw [List.length_take]; omega
  have hb0 : build_rotation_block (c.axes.get ⟨0, h0lt⟩) (c.qubits.take n)
      (c.thetas.take n) =
      some (List.zipWith (fun q t => mkNative m0 [t] [q]) (c.qubits.take n)
        (c.thetas.take n)) := by
    unfold build_rotation_block
    rw [hg0]
    exact rot_loop_eq_some _ _ _ (by rw [hql, hts0])
  have hb0len : (List.zipWith (fun q t => mkNative m0 [t] [q]) (c.qubits.take n)
      (c.thetas.take n)).length = n := by
    rw [List.length_zipWith, hql, hts0, min_self]
  obtain ⟨added, hloop, hadlen, hadmem⟩ :=
    encode_loop_ok c n hnd' hq (List.range n)
      (fun i hi => by
        have hilt : i < n := List.mem_range.mp hi
        have hi1 : i + 1 < c.axes.length := by omega
        refine ⟨hilt, ⟨c.axes.get ⟨i + 1, hi1⟩, haxv _ (List.get_mem _ _ _),
          List.get?_eq_get hi1⟩, ?_⟩
        have hle : (n - 1) * (i + 1) ≤ (n - 1) * n := Nat.mul_le_mul_left _ (by omega)
        omega)
      (p0 ++ List.zipWith (fun q t => mkNative m0 [t] [q]) (c.qubits.take n)
        (c.thetas.take n))
  have hF : n + 1 < c.axes.length := by omega
  have haF : c.axes.get? (n + 1) = some (c.axes.get ⟨n + 1, hF⟩) := List.get?_eq_get hF
  have haFv : c.axes.get ⟨n + 1, hF⟩ ∈ axisNames := haxv _ (List.get_mem _ _ _)
  obtain ⟨mF, hmF, hgF⟩ := gate_from_axis_valid1 (α := α) haFv
  have htsF : ((c.thetas.drop (n + (n - 1) * n)).take n).length = n - 1 := by
    rw [List.length_take, List.length_drop]
    omega
  have hbF : build_rotation_block (c.axes.get ⟨n + 1, hF⟩) (c.qubits.take n)
      ((c.thetas.drop (n + (n - 1) * n)).take n) = none := by
    unfold build_rotation_block
    rw [hgF]
    exact rot_loop_eq_none _ _ _ (by rw [hql, htsF]; omega)
  refine ⟨List.zipWith (fun q t => mkNative m0 [t] [q]) (c.qubits.take n)
      (c.thetas.take n) ++ added, ?_, ?_⟩
  · show encode_from c p0 = _
    unfold encode_from
    rw [← hn]
    simp only [ha0, hb0, hloop, haF, hbF]
    simp [List.append_assoc]
  · simp only [List.length_append, hb0len, hadlen, List.length_range]
    omega

theorem encode_from_err_badaxis {α : Type} (c : QAECircuit α) {j : ℕ} {b : String}
    (hj1 : 1 ≤ j) (hjn : j ≤ c.num_input_qubits + 1)
    (hnd : c.qubits.Nodup)
    (hq : c.num_input_qubits ≤ c.qubits.length)
    (hbefore : ∀ k, k < j → ∃ a ∈ axisNames, c.axes.get? k = some a)
    (hbad : c.axes.get? j = some b) (hbv : b ∉ axisNames)
    (hθ : c.thetas.length = 2 * c.num_input_qubits +
      c.num_input_qubits * (c.num_input_qubits - 1))
    (p0 : List (Instr α)) :
    ∃ leftover, encode_from c p0 = .err (p0 ++ leftover) ∧
      leftover.length = c.num_input_qubits +
        (c.num_input_qubits - 1) * (j - 1) := by
  set n := c.num_input_qubits with hn
  have hmulc : (n - 1) * n = n * (n - 1) := Nat.mul_comm _ _
  have hnd' : (c.qubits.take n).Nodup := (List.take_sublist n c.qubits).nodup hnd
  have hql : (c.qubits.take n).length = n := by rw [List.length_take]; omega
  obtain ⟨a0, ha0v, ha0⟩ := hbefore 0 (by omega)
  obtain ⟨m0, hm0, hg0⟩ := gate_from_axis_valid1 (α := α) ha0v
  have hts0 : (c.thetas.take n).length = n := by
    rw [List.length_take]; omega
  have hb0 : build_rotation_block a0 (c.qubits.take n) (c.thetas.take n) =
      some (List.zipWith (fun q t => mkNative m0 [t] [q]) (c.qubits.take n)
        (c.thetas.take n)) := by
    unfold build_rotation_block
    rw [hg0]
    exact rot_loop_eq_some _ _ _ (by rw [hql, hts0])
  have hb0len : (List.zipWith (fun q t => mkNative m0 [t] [q]) (c.qubits.take n)
      (c.thetas.take n)).length = n := by
    rw [List.length_zipWith, hql, hts0, min_self]
  have hthcond : ∀ i : ℕ, i < n → n + (n - 1) * (i + 1) ≤ c.thetas.length := by
    intro i hilt
    have hle : (n - 1) * (i + 1) ≤ (n - 1) * n := Nat.mul_le_mul_left _ (by omega)
    omega
  by_cases hjcase : j ≤ n
  · obtain ⟨added, hloop1, hadlen, _⟩ :=
      encode_loop_ok c n hnd' hq (List.range (j - 1))
        (fun i hi => by
          have hilt : i < j - 1 := List.mem_range.mp hi
          obtain ⟨a, hav, hga⟩ := hbefore (i + 1) (by omega)
          exact ⟨by omega, ⟨a, hav, hga⟩, hthcond i (by omega)⟩)
        (p0 ++ List.zipWith (fun q t => mkNative m0 [t] [q]) (c.qubits.take n)
          (c.thetas.take n))
    have hj1' : j - 1 < n := by omega
    have hget : (c.qubits.take n).get? (j - 1) =
        some ((c.qubits.take n).get ⟨j - 1, by omega⟩) :=
      List.get?_eq_get (by omega)
    have haxj : c.axes.get? (j - 1 + 1) = some b := by
      rw [show j - 1 + 1 = j from by omega]; exact hbad
    have hstep : encode_loop c (c.qubits.take n) n
        ((j - 1) :: List.range' j (n - j))
        (p0 ++ List.zipWith (fun q t => mkNative m0 [t] [q]) (c.qubits.take n)
          (c.thetas.take n) ++ added) =
        .err (p0 ++ List.zipWith (fun q t => mkNative m0 [t] [q]) (c.qubits.take n)
          (c.thetas.take n) ++ added) := by
      simp only [encode_loop, haxj, hget, build_ctrl_invalid hbv]
    have hloopfull : encode_loop c (c.qubits.take n) n (List.range n)
        (p0 ++ List.zipWith (fun q t => mkNative m0 [t] [q]) (c.qubits.take n)
          (c.thetas.take n)) =
        .err (p0 ++ List.zipWith (fun q t => mkNative m0 [t] [q]) (c.qubits.take n)
          (c.thetas.take n) ++ added) := by
      rw [range_split hj1 hjcase, encode_loop_append_ok _ hloop1, hstep]
    refine ⟨List.zipWith (fun q t => mkNative m0 [t] [q]) (c.qubits.take n)
        (c.thetas.take n) ++ added, ?_, ?_⟩
    · show encode_from c p0 = _
      unfold encode_from
      rw [← hn]
      simp only [ha0, hb0, hloopfull]
      simp [List.append_assoc]
    · simp only [List.length_append, hb0len, hadlen, List.length_range]
  · have hjeq : j = n + 1 := by omega
    obtain ⟨added, hloop, hadlen, _⟩ :=
      encode_loop_ok c n hnd' hq (List.range n)
        (fun i hi => by
          have hilt : i < n := List.mem_range.mp hi
          obtain ⟨a, hav, hga⟩ := hbefore (i + 1) (by omega)
          exact ⟨hilt, ⟨a, hav, hga⟩, hthcond i hilt⟩)
        (p0 ++ List.zipWith (fun q t => mkNative m0 [t] [q]) (c.qubits.take n)
          (c.thetas.take n))
    have haF : c.axes.get? (n + 1) = some b := hjeq ▸ hbad
    refine ⟨List.zipWith (fun q t => mkNative m0 [t] [q]) (c.qubits.take n)
        (c.thetas.take n) ++ added, ?_, ?_⟩
    · show encode_from c p0 = _
      unfold encode_from
      rw [← hn]
      simp only [ha0, hb0, hloop, haF, build_rot_invalid hbv]
      simp [List.append_assoc]
    · have hjm : (n - 1) * (j - 1) = (n - 1) * n := by
        rw [hjeq]
        simp
      simp only [List.length_append, hb0len, hadlen, List.length_range]
      omega

end EncodeLemmas

section InvolutionLemmas

theorem tflip_tflip {α : Type} [Ring α] {Q : List ℕ} (hnd : Q.Nodup) {g : Instr α}
    (hq : ∀ q ∈ g.qubits, q ∈ Q) : tflip Q (tflip Q g) = g := by
  obtain ⟨nm, ps, qs⟩ := g
  simp only [tflip, List.map_map]
  refine congrArg₂ (Instr.mk nm) ?_ ?_
  · rw [List.map_congr_left (g := id) fun x _ => by simp [Function.comp], List.map_id]
  · rw [List.map_congr_left (g := id) fun x hx => ?_, List.map_id]
    simp only [Function.comp, id]
    exact revMap_revMap hnd (hq x hx)

theorem default_qubits_eq_range (n : ℕ) : default_qubits n = List.range n := by
  have hgen : ∀ (l acc : List ℕ), l.foldl (fun a i => a ++ [i]) acc = acc ++ l := by
    intro l
    induction l with
    | nil => simp
    | cons x xs ih =>
      intro acc
      simp only [List.foldl_cons, ih, List.append_assoc, List.singleton_append]
  unfold default_qubits
  rw [hgen]
  simp

end InvolutionLemmas

/-! Concrete sample configurations used by the witnesses below. -/

/-- A small valid configuration: two qubits, no latent qubit, hence one
input qubit; thetas of length 2 = 2n + n(n-1); axes of length n + 2. -/
def sampleCfg : QAECircuit ℤ :=
  QAECircuit.init 2 0 [1, 2] (some ["X", "X", "X"]) (some [0, 1])

/-- The same configuration as sampleCfg obtained through the default
paths of __init__. -/
def sampleCfgDefaults : QAECircuit ℤ :=
  QAECircuit.init 2 0 [1, 2] none none

/-- C1: for every configuration whose encode stage and decode
transform both succeed, the k-th instruction of the decode stage
corresponds to the (len(encode)-1-k)-th instruction of the encode
stage: same gate type, every angle negated (multiplied by -1), and
the qubit list sent elementwise (so the control stays first) through
the position-reversal mapping built from the full qubit ordering;
moreover build returns encode followed by decode. -/
theorem c1_decode_mirrors_encode {α : Type} [Ring α] (c : QAECircuit α)
    (enc dec : List (Instr α)) (henc : encode_program c = .ok enc)
    (hdec : dagger_and_flip enc c.qubits = some dec)
    (k : ℕ) (hk : k < enc.length) (hk' : k < dec.length)
    (hk2 : enc.length - 1 - k < enc.length) :
    dec.length = enc.length ∧
    build_circuit c = ⟨some (enc ++ dec), enc⟩ ∧
    (dec.get ⟨k, hk'⟩).name = (enc.get ⟨enc.length - 1 - k, hk2⟩).name ∧
    (dec.get ⟨k, hk'⟩).params =
      (enc.get ⟨enc.length - 1 - k, hk2⟩).params.map (fun x => -1 * x) ∧
    qmap_loop c.qubits (enc.get ⟨enc.length - 1 - k, hk2⟩).qubits =
      some (dec.get ⟨k, hk'⟩).qubits := by
  obtain ⟨hlen, hget⟩ := dagger_mirror hdec
  have henc' : encode_from c [] = .ok enc := henc
  have hbuild : build_circuit c = ⟨some (enc ++ dec), enc⟩ := by
    unfold build_circuit build_circuit_stateful
    simp only [henc', hdec]
  have hgood : (enc.get ⟨enc.length - 1 - k, hk2⟩).name ∈ goodNames := by
    rcases encode_from_inv henc' _ (List.get_mem _ _ _) with hmem | hgood'
    · simp at hmem
    · exact hgood'.1
  have hflip := hget k hk hk'
  unfold flip_instr at hflip
  cases hqm : qmap_loop c.qubits (enc.get ⟨enc.length - 1 - k, hk2⟩).qubits with
  | none => rw [hqm] at hflip; exact absurd hflip (by simp)
  | some gq =>
    rw [hqm] at hflip
    cases hgd : gates_dict (α := α) (enc.get ⟨enc.length - 1 - k, hk2⟩).name with
    | none => rw [hgd] at hflip; exact absurd hflip (by simp)
    | some ctor =>
      rw [hgd] at hflip
      have hctor : ctor = mkNative (enc.get ⟨enc.length - 1 - k, hk2⟩).name := by
        have := gates_dict_good (α := α) hgood
        rw [hgd] at this
        exact Option.some.inj this
      subst hctor
      have hdk : dec.get ⟨k, hk'⟩ =
          mkNative (enc.get ⟨enc.length - 1 - k, hk2⟩).name
            ((enc.get ⟨enc.length - 1 - k, hk2⟩).params.map fun x => -1 * x) gq :=
        (Option.some.inj hflip).symm
      refine ⟨hlen, hbuild, ?_, ?_, ?_⟩
      · rw [hdk]
        rfl
      · rw [hdk]
        rfl
      · have hq2 : (dec.get ⟨k, hk'⟩).qubits = gq := by
          rw [hdk]
          rfl
        rw [hq2]

/-- Witness for C1 at the sample configuration with k = 0. -/
theorem c1_witness :
    encode_program sampleCfg = .ok [⟨"RX", [1], [0]⟩, ⟨"RX", [2], [0]⟩] ∧
    dagger_and_flip [(⟨"RX", [1], [0]⟩ : Instr ℤ), ⟨"RX", [2], [0]⟩] sampleCfg.qubits
      = some [⟨"RX", [-2], [1]⟩, ⟨"RX", [-1], [1]⟩] ∧
    (([⟨"RX", [-2], [1]⟩, ⟨"RX", [-1], [1]⟩] : List (Instr ℤ)).length =
        ([⟨"RX", [1], [0]⟩, ⟨"RX", [2], [0]⟩] : List (Instr ℤ)).length ∧
      build_circuit sampleCfg =
        ⟨some ([⟨"RX", [1], [0]⟩, ⟨"RX", [2], [0]⟩] ++ [⟨"RX", [-2], [1]⟩, ⟨"RX", [-1], [1]⟩]),
          [⟨"RX", [1], [0]⟩, ⟨"RX", [2], [0]⟩]⟩ ∧
      (([⟨"RX", [-2], [1]⟩, ⟨"RX", [-1], [1]⟩] : List (Instr ℤ)).get ⟨0, by decide⟩).name =
        (([⟨"RX", [1], [0]⟩, ⟨"RX", [2], [0]⟩] : List (Instr ℤ)).get ⟨2 - 1 - 0, by decide⟩).name ∧
      (([⟨"RX", [-2], [1]⟩, ⟨"RX", [-1], [1]⟩] : List (Instr ℤ)).get ⟨0, by decide⟩).params =
        (([⟨"RX", [1], [0]⟩, ⟨"RX", [2], [0]⟩] : List (Instr ℤ)).get ⟨2 - 1 - 0, by decide⟩).params.map
          (fun x => -1 * x) ∧
      qmap_loop sampleCfg.qubits
          (([⟨"RX", [1], [0]⟩, ⟨"RX", [2], [0]⟩] : List (Instr ℤ)).get ⟨2 - 1 - 0, by decide⟩).qubits =
        some (([⟨"RX", [-2], [1]⟩, ⟨"RX", [-1], [1]⟩] : List (Instr ℤ)).get ⟨0, by decide⟩).qubits) :=
  ⟨by decide, by decide,
    c1_decode_mirrors_encode sampleCfg _ _ (by decide) (by decide) 0 (by decide)
      (by decide) (by decide)⟩

/-- C2 counterexample: the involution fails as stated.  The program
consisting of one CRZ instruction has all its qubits in the duplicate
free ordering, yet applying daggerAndFlip twice yields a CRX
instruction, because the registry constructor looked up under the CRZ
key stamps the CRX name (source line 74). -/
theorem c2_involution_counterexample :
    ([0, 1] : List ℕ).Nodup ∧
    (∀ g ∈ ([⟨"CRZ", [1], [0, 1]⟩] : List (Instr ℤ)), ∀ q ∈ g.qubits, q ∈ ([0, 1] : List ℕ)) ∧
    (dagger_and_flip ([⟨"CRZ", [1], [0, 1]⟩] : List (Instr ℤ)) [0, 1]).bind
        (fun p => dagger_and_flip p [0, 1]) ≠
      some [⟨"CRZ", [1], [0, 1]⟩] := by decide

/-- C2 amended: daggerAndFlip is an involution on programs whose
qubits all lie in the duplicate free ordering Q and whose gate names
are stable registry names (RX, RY, RZ, CRX, CRY - the names actually
stamped by the registry constructors; the mislabeled CRZ key is
excluded). -/
theorem c2_involution_amended {α : Type} [Ring α] (P : List (Instr α)) (Q : List ℕ)
    (hnd : Q.Nodup)
    (hq : ∀ g ∈ P, ∀ q ∈ g.qubits, q ∈ Q)
    (hname : ∀ g ∈ P, g.name ∈ goodNames) :
    (dagger_and_flip P Q).bind (fun p => dagger_and_flip p Q) = some P := by
  rw [dagger_eq_map fun g hg => ⟨hname g hg, hq g hg⟩, Option.some_bind,
    dagger_eq_map fun g hg => ?_]
  · rw [← List.map_reverse, List.reverse_reverse, List.map_map]
    refine congrArg some ?_
    rw [List.map_congr_left (g := id) fun g hg => ?_, List.map_id]
    simp only [Function.comp, id]
    exact tflip_tflip hnd (hq g hg)
  · obtain ⟨g0, hg0, rfl⟩ := List.mem_map.mp hg
    have hg0' := List.mem_reverse.mp hg0
    refine ⟨hname g0 hg0', fun q hqm => ?_⟩
    obtain ⟨q0, hq0, rfl⟩ := List.mem_map.mp hqm
    exact revMap_mem (hq g0 hg0' q0 hq0)

/-- Witness for the amended C2 at a one-instruction RX program. -/
theorem c2_involution_witness :
    ([0, 1] : List ℕ).Nodup ∧
    (∀ g ∈ ([⟨"RX", [2], [0]⟩] : List (Instr ℤ)), ∀ q ∈ g.qubits, q ∈ ([0, 1] : List ℕ)) ∧
    (∀ g ∈ ([⟨"RX", [2], [0]⟩] : List (Instr ℤ)), g.name ∈ goodNames) ∧
    (dagger_and_flip ([⟨"RX", [2], [0]⟩] : List (Instr ℤ)) [0, 1]).bind
        (fun p => dagger_and_flip p [0, 1]) =
      some [⟨"RX", [2], [0]⟩] :=
  ⟨by decide, by decide, by decide,
    c2_involution_amended _ _ (by decide) (by decide) (by decide)⟩

/-- C3: for every valid configuration the encode stage has exactly
2n + n(n-1) instructions, the decode stage has exactly as many, and
the result of build is encode followed by decode. -/
theorem c3_length_invariant {α : Type} [Ring α] (c : QAECircuit α)
    (hnd : c.qubits.Nodup)
    (hq : c.num_input_qubits ≤ c.qubits.length)
    (hax : c.axes.length = c.num_input_qubits + 2)
    (haxv : ∀ a ∈ c.axes, a ∈ axisNames)
    (hθ : c.thetas.length = 2 * c.num_input_qubits +
      c.num_input_qubits * (c.num_input_qubits - 1)) :
    ∃ enc dec, encode_program c = .ok enc ∧
      dagger_and_flip enc c.qubits = some dec ∧
      enc.length = 2 * c.num_input_qubits +
        c.num_input_qubits * (c.num_input_qubits - 1) ∧
      dec.length = enc.length ∧
      build_circuit c = ⟨some (enc ++ dec), enc⟩ := by
  obtain ⟨enc, hencf, hlen, hmem⟩ := encode_from_ok c hnd hq hax haxv hθ []
  have henc : encode_from c [] = .ok enc := by simpa using hencf
  have hcond : ∀ g ∈ enc, g.name ∈ goodNames ∧ ∀ q ∈ g.qubits, q ∈ c.qubits := by
    intro g hg
    obtain ⟨h1, h2⟩ := hmem g hg
    exact ⟨h1, fun q hqm => List.mem_of_mem_take (h2 q hqm)⟩
  have hdec := dagger_eq_map hcond
  refine ⟨enc, enc.reverse.map (tflip c.qubits), henc, hdec, hlen, by simp, ?_⟩
  unfold build_circuit build_circuit_stateful
  simp only [henc, hdec]

/-- Witness for C3 at the sample configuration. -/
theorem c3_witness :
    sampleCfg.qubits.Nodup ∧
    sampleCfg.num_input_qubits ≤ sampleCfg.qubits.length ∧
    sampleCfg.axes.length = sampleCfg.num_input_qubits + 2 ∧
    (∀ a ∈ sampleCfg.axes, a ∈ axisNames) ∧
    sampleCfg.thetas.length = 2 * sampleCfg.num_input_qubits +
      sampleCfg.num_input_qubits * (sampleCfg.num_input_qubits - 1) ∧
    (∃ enc dec, encode_program sampleCfg = .ok enc ∧
      dagger_and_flip enc sampleCfg.qubits = some dec ∧
      enc.length = 2 * sampleCfg.num_input_qubits +
        sampleCfg.num_input_qubits * (sampleCfg.num_input_qubits - 1) ∧
      dec.length = enc.length ∧
      build_circuit sampleCfg = ⟨some (enc ++ dec), enc⟩) :=
  ⟨by decide, by decide, by decide, by decide, by decide,
    c3_length_invariant sampleCfg (by decide) (by decide) (by decide) (by decide)
      (by decide)⟩

/-- C4: for a valid axis, a control qubit in a duplicate free qubit
list and one fewer angles than qubits, the controlled block is one
instruction per non-control qubit, in the relative order of the qubit list,
pairing each non-control qubit with the next unused angle and placing
the control first. -/
theorem c4_controlled_block {α : Type} (axis : String) (qubits : List ℕ)
    (thetas : List α) (ctl : ℕ)
    (haxis : axis ∈ axisNames) (hctl : ctl ∈ qubits) (hnd : qubits.Nodup)
    (hlen : thetas.length = qubits.length - 1) :
    ∃ gate, gate_from_axis (α := α) axis 2 = some gate ∧
      build_controlled_rotation_block axis qubits thetas ctl =
        some (List.zipWith (fun q t => gate [t] [ctl, q])
          (qubits.filter fun q => q ≠ ctl) thetas) ∧
      (List.zipWith (fun q t => gate [t] [ctl, q])
          (qubits.filter fun q => q ≠ ctl) thetas).length = qubits.length - 1 := by
  obtain ⟨m, hm, hg⟩ := gate_from_axis_valid2 (α := α) haxis
  have hfl : (qubits.filter fun q => q ≠ ctl).length = qubits.length - 1 :=
    filter_ne_length hnd hctl
  refine ⟨mkNative m, hg, ?_, ?_⟩
  · unfold build_controlled_rotation_block
    rw [hg]
    exact ctrl_loop_eq_some _ _ _ _ (by omega)
  · rw [List.length_zipWith, hfl, hlen]
    omega

/-- Witness for C4: axis X, qubits [5, 7], control 7, one angle. -/
theorem c4_witness :
    ("X" ∈ axisNames) ∧ (7 ∈ ([5, 7] : List ℕ)) ∧ ([5, 7] : List ℕ).Nodup ∧
    ([(3 : ℤ)] : List ℤ).length = ([5, 7] : List ℕ).length - 1 ∧
    (∃ gate, gate_from_axis (α := ℤ) "X" 2 = some gate ∧
      build_controlled_rotation_block "X" [5, 7] ([3] : List ℤ) 7 =
        some (List.zipWith (fun q t => gate [t] [7, q])
          (([5, 7] : List ℕ).filter fun q => q ≠ 7) [3]) ∧
      (List.zipWith (fun q t => gate [t] [7, q])
          (([5, 7] : List ℕ).filter fun q => q ≠ 7) ([3] : List ℤ)).length =
        ([5, 7] : List ℕ).length - 1) :=
  ⟨by decide, by decide, by decide, by decide,
    c4_controlled_block "X" [5, 7] [3] 7 (by decide) (by decide) (by decide) (by decide)⟩

/-- The sample configuration with a thetas list one element short of
2n + n(n-1): n = 1 needs two thetas, only one is given. -/
def shortCfg : QAECircuit ℤ :=
  QAECircuit.init 2 0 [1] (some ["X", "X", "X"]) (some [0, 1])

/-- C5 counterexample: with thetas one element short, build does fail,
but only inside the final rotation block: the initial rotation
instruction has already been emitted into self.program, so an
incomplete program is observable and the out-of-range slice was
silently truncated instead of raising eagerly. -/
theorem c5_counterexample :
    shortCfg.thetas.length = 2 * shortCfg.num_input_qubits +
      shortCfg.num_input_qubits * (shortCfg.num_input_qubits - 1) - 1 ∧
    build_circuit shortCfg = ⟨none, [⟨"RX", [1], [0]⟩]⟩ ∧
    (build_circuit shortCfg).self_program ≠ [] := by decide

/-- C5 amended: if thetas is one element short of 2n + n(n-1) in an
otherwise valid configuration with n at least 1, build fails with an
IndexError inside the final rotation block - after the initial block
and all n controlled blocks, n + n(n-1) instructions in total, have
already been emitted into the mutable self.program, which remains
observable on the object; the short slice itself is silent. -/
theorem c5_eager_validation_amended {α : Type} [Ring α] (c : QAECircuit α)
    (hn1 : 1 ≤ c.num_input_qubits)
    (hnd : c.qubits.Nodup)
    (hq : c.num_input_qubits ≤ c.qubits.length)
    (hax : c.axes.length = c.num_input_qubits + 2)
    (haxv : ∀ a ∈ c.axes, a ∈ axisNames)
    (hθ : c.thetas.length = 2 * c.num_input_qubits +
      c.num_input_qubits * (c.num_input_qubits - 1) - 1) :
    ∃ p, build_circuit_stateful c [] = ⟨none, p⟩ ∧
      p.length = c.num_input_qubits +
        c.num_input_qubits * (c.num_input_qubits - 1) ∧
      p ≠ [] := by
  obtain ⟨leftover, herr, hlen⟩ :=
    encode_from_err_short c hn1 hnd hq hax haxv hθ []
  have herr' : encode_from c [] = .err leftover := by simpa using herr
  refine ⟨leftover, ?_, hlen, ?_⟩
  · unfold build_circuit_stateful
    simp only [herr']
  · intro hnil
    rw [hnil] at hlen
    simp only [List.length_nil] at hlen
    omega

/-- Witness for the amended C5 at the short sample configuration. -/
theorem c5_witness :
    1 ≤ shortCfg.num_input_qubits ∧
    shortCfg.qubits.Nodup ∧
    shortCfg.num_input_qubits ≤ shortCfg.qubits.length ∧
    shortCfg.axes.length = shortCfg.num_input_qubits + 2 ∧
    (∀ a ∈ shortCfg.axes, a ∈ axisNames) ∧
    shortCfg.thetas.length = 2 * shortCfg.num_input_qubits +
      shortCfg.num_input_qubits * (shortCfg.num_input_qubits - 1) - 1 ∧
    (∃ p, build_circuit_stateful shortCfg [] = ⟨none, p⟩ ∧
      p.length = shortCfg.num_input_qubits +
        shortCfg.num_input_qubits * (shortCfg.num_input_qubits - 1) ∧
      p ≠ []) :=
  ⟨by decide, by decide, by decide, by decide, by decide, by decide,
    c5_eager_validation_amended shortCfg (by decide) (by decide) (by decide)
      (by decide) (by decide) (by decide)⟩

/-- C6 counterexample: the build method is not a pure function of the
configuration object.  Calling build_circuit twice on the same object
(the second call starting from the self.program left by the first)
returns a different, longer program, because build_circuit appends the
encode stage to the mutable self.program attribute. -/
theorem c6_purity_counterexample :
    (build_circuit_stateful sampleCfg []).result ≠ none ∧
    (build_circuit_stateful sampleCfg
        ((build_circuit_stateful sampleCfg []).self_program)).result ≠
      (build_circuit_stateful sampleCfg []).result := by decide

/-- C6 amended: the five configuration attributes are never mutated,
and the result of a build on a freshly initialized object is a
function of those attributes alone: two objects agreeing on all five
fields yield identical outcomes (result and final self.program).  A
repeated build on the same object, however, starts from the mutated
self.program and returns a different program. -/
theorem c6_purity_amended {α : Type} [Ring α] (c c' : QAECircuit α)
    (h1 : c.num_qubits = c'.num_qubits)
    (h2 : c.num_latent_qubits = c'.num_latent_qubits)
    (h3 : c.thetas = c'.thetas)
    (h4 : c.axes = c'.axes)
    (h5 : c.qubits = c'.qubits) :
    build_circuit_stateful c [] = build_circuit_stateful c' [] := by
  obtain ⟨n1, l1, t1, a1, q1⟩ := c
  obtain ⟨n2, l2, t2, a2, q2⟩ := c'
  simp only at h1 h2 h3 h4 h5
  subst h1 h2 h3 h4 h5
  rfl

/-- Witness for the amended C6: sampleCfg was built with explicit axes
and qubit lists, sampleCfgDefaults through the default paths; the
field values agree and so do the build outcomes. -/
theorem c6_purity_witness :
    sampleCfg.num_qubits = sampleCfgDefaults.num_qubits ∧
    sampleCfg.num_latent_qubits = sampleCfgDefaults.num_latent_qubits ∧
    sampleCfg.thetas = sampleCfgDefaults.thetas ∧
    sampleCfg.axes = sampleCfgDefaults.axes ∧
    sampleCfg.qubits = sampleCfgDefaults.qubits ∧
    build_circuit_stateful sampleCfg [] = build_circuit_stateful sampleCfgDefaults [] :=
  ⟨by decide, by decide, by decide, by decide, by decide,
    c6_purity_amended sampleCfg sampleCfgDefaults (by decide) (by decide) (by decide)
      (by decide) (by decide)⟩

/-- C7: if some instruction of the program references a qubit index
with no entry in the position-reversal mapping built from the ordering
(its keys are exactly the members of the ordering), dagger_and_flip
fails with a KeyError (a LookupError); there is no internal
recovery. -/
theorem c7_lookup_error {α : Type} [Ring α] (P : List (Instr α)) (Q : List ℕ)
    (g : Instr α) (q : ℕ) (hg : g ∈ P) (hq : q ∈ g.qubits) (habs : q ∉ Q) :
    dagger_and_flip P Q = none := by
  unfold dagger_and_flip
  have hf : flip_instr Q g = none := by
    unfold flip_instr
    rw [qmap_loop_none hq (qubits_reversed_of_not_mem habs)]
  exact flip_loop_none (List.mem_reverse.mpr hg) hf

/-- Witness for C7: qubit 5 is not in the ordering [0, 1]. -/
theorem c7_witness :
    ((⟨"RX", [1], [5]⟩ : Instr ℤ) ∈ ([⟨"RX", [1], [5]⟩] : List (Instr ℤ))) ∧
    (5 ∈ (⟨"RX", [1], [5]⟩ : Instr ℤ).qubits) ∧
    (5 ∉ ([0, 1] : List ℕ)) ∧
    dagger_and_flip ([⟨"RX", [1], [5]⟩] : List (Instr ℤ)) [0, 1] = none :=
  ⟨by decide, by decide, by decide,
    c7_lookup_error _ [0, 1] ⟨"RX", [1], [5]⟩ 5 (by decide) (by decide) (by decide)⟩

/-- C8: the registry entry under the CRZ key is built from crx_def
(source line 74), not from crz_def: the gate it yields is named CRX,
and its matrix evaluated at theta = pi differs from the controlled-Z
matrix at entry (2, 3), where the controlled-Z matrix is 0 and the
controlled-X matrix is -i times sin(pi/2) = -i.  So the entry labeled
CRZ produces controlled-X, not controlled-Z, behavior. -/
theorem c8_crz_entry_is_crx :
    gates_dict (α := ℤ) "CRZ" = some (DefGate.get_constructor crx_def) ∧
    crx_def.name = "CRX" ∧
    crx_def.matrix 2 3 ≠ crz_def.matrix 2 3 ∧
    QuilExpr.eval Real.pi (crx_def.matrix 2 3) = -Complex.I ∧
    QuilExpr.eval Real.pi (crz_def.matrix 2 3) = 0 ∧
    QuilExpr.eval Real.pi (crx_def.matrix 2 3) ≠
      QuilExpr.eval Real.pi (crz_def.matrix 2 3) := by
  have hx : crx_def.matrix 2 3 =
      QuilExpr.mul (.neg .i) (.sin (.div .theta (.intLit 2))) := by decide
  have hz : crz_def.matrix 2 3 = QuilExpr.intLit 0 := by decide
  have hex : QuilExpr.eval Real.pi (crx_def.matrix 2 3) = -Complex.I := by
    rw [hx]
    simp only [QuilExpr.eval]
    have h2 : ((2 : ℤ) : ℂ) = ((2 : ℝ) : ℂ) := by norm_num
    have harg : (Real.pi : ℂ) / ((2 : ℤ) : ℂ) = ((Real.pi / 2 : ℝ) : ℂ) := by
      rw [h2, Complex.ofReal_div]
    rw [harg, ← Complex.ofReal_sin, Real.sin_pi_div_two]
    simp
  have hez : QuilExpr.eval Real.pi (crz_def.matrix 2 3) = 0 := by
    rw [hz]
    simp [QuilExpr.eval]
  refine ⟨rfl, rfl, ?_, hex, hez, ?_⟩
  · rw [hx, hz]
    decide
  · rw [hex, hez]
    simp [Complex.I_ne_zero]

/-- C9: an absent axes argument defaults to n + 2 copies of X, an
absent qubits argument defaults to 0 .. numQubits - 1 (built by the
append loop of __init__), and the configuration - hence the built
circuit - is identical to passing those lists explicitly. -/
theorem c9_defaults {α : Type} [Ring α] (num_qubits num_latent_qubits : ℕ)
    (thetas : List α) :
    (QAECircuit.init num_qubits num_latent_qubits thetas none none).axes =
      List.replicate ((num_qubits + num_latent_qubits) / 2 + 2) "X" ∧
    (QAECircuit.init num_qubits num_latent_qubits thetas none none).qubits =
      List.range num_qubits ∧
    QAECircuit.init num_qubits num_latent_qubits thetas none none =
      QAECircuit.init num_qubits num_latent_qubits thetas
        (some (List.replicate ((num_qubits + num_latent_qubits) / 2 + 2) "X"))
        (some (List.range num_qubits)) ∧
    build_circuit (QAECircuit.init num_qubits num_latent_qubits thetas none none) =
      build_circuit (QAECircuit.init num_qubits num_latent_qubits thetas
        (some (List.replicate ((num_qubits + num_latent_qubits) / 2 + 2) "X"))
        (some (List.range num_qubits))) := by
  have hcfg : QAECircuit.init (α := α) num_qubits num_latent_qubits thetas none none =
      QAECircuit.init num_qubits num_latent_qubits thetas
        (some (List.replicate ((num_qubits + num_latent_qubits) / 2 + 2) "X"))
        (some (List.range num_qubits)) := by
    unfold QAECircuit.init
    rw [default_qubits_eq_range]
  refine ⟨rfl, ?_, hcfg, by rw [hcfg]⟩
  show default_qubits num_qubits = List.range num_qubits
  exact default_qubits_eq_range num_qubits

/-- The sample configuration with an invalid axis string at position 1
(the axis of the first controlled block). -/
def badAxisCfg : QAECircuit ℤ :=
  QAECircuit.init 2 0 [1, 2] (some ["X", "Q", "X"]) (some [0, 1])

/-- C10: an axis string outside X, Y, Z at a position j used by build
makes the gate lookup fail only when the corresponding block is built:
build returns no program, and the mutable self.program already holds
the n + (n-1)(j-1) instructions of all blocks before position j - the
invalid axis is not rejected eagerly. -/
theorem c10_lazy_axis_failure {α : Type} [Ring α] (c : QAECircuit α) (j : ℕ) (b : String)
    (hn1 : 1 ≤ c.num_input_qubits)
    (hj1 : 1 ≤ j) (hjn : j ≤ c.num_input_qubits + 1)
    (hnd : c.qubits.Nodup)
    (hq : c.num_input_qubits ≤ c.qubits.length)
    (hbefore : ∀ k, k < j → ∃ a ∈ axisNames, c.axes.get? k = some a)
    (hbad : c.axes.get? j = some b) (hbv : b ∉ axisNames)
    (hθ : c.thetas.length = 2 * c.num_input_qubits +
      c.num_input_qubits * (c.num_input_qubits - 1)) :
    ∃ p, build_circuit_stateful c [] = ⟨none, p⟩ ∧
      p.length = c.num_input_qubits +
        (c.num_input_qubits - 1) * (j - 1) ∧
      p ≠ [] := by
  obtain ⟨leftover, herr, hlen⟩ :=
    encode_from_err_badaxis c hj1 hjn hnd hq hbefore hbad hbv hθ []
  have herr' : encode_from c [] = .err leftover := by simpa using herr
  refine ⟨leftover, ?_, hlen, ?_⟩
  · unfold build_circuit_stateful
    simp only [herr']
  · intro hnil
    rw [hnil] at hlen
    simp only [List.length_nil] at hlen
    omega

/-- Witness for C10 at the bad-axis sample configuration, j = 1. -/
theorem c10_witness :
    1 ≤ badAxisCfg.num_input_qubits ∧
    (1 : ℕ) ≤ 1 ∧ 1 ≤ badAxisCfg.num_input_qubits + 1 ∧
    badAxisCfg.qubits.Nodup ∧
    badAxisCfg.num_input_qubits ≤ badAxisCfg.qubits.length ∧
    (∀ k, k < 1 → ∃ a ∈ axisNames, badAxisCfg.axes.get? k = some a) ∧
    badAxisCfg.axes.get? 1 = some "Q" ∧ "Q" ∉ axisNames ∧
    badAxisCfg.thetas.length = 2 * badAxisCfg.num_input_qubits +
      badAxisCfg.num_input_qubits * (badAxisCfg.num_input_qubits - 1) ∧
    (∃ p, build_circuit_stateful badAxisCfg [] = ⟨none, p⟩ ∧
      p.length = badAxisCfg.num_input_qubits +
        (badAxisCfg.num_input_qubits - 1) * (1 - 1) ∧
      p ≠ []) :=
  ⟨by decide, by decide, by decide, by decide, by decide, by decide, by decide,
    by decide, by decide,
    c10_lazy_axis_failure badAxisCfg 1 "Q" (by decide) (by decide) (by decide)
      (by decide) (by decide) (by decide) (by decide) (by decide) (by decide)⟩

end QAE
